import Mathlib

/-!
Verification of the freqgen CLI (packages/freqgen-cli/cli.js) and the
@freqgen/core operations it invokes.  Sequences are lists of characters,
JavaScript Maps are association lists (insertion order preserved, first
occurrence wins on lookup, as in the ECMAScript Map semantics used by the
source).  Core operations that live in the @freqgen/core package (absent
from the CLI file) are modelled from the specification and marked as such
in their doc comments.
-/

set_option maxHeartbeats 1000000

namespace Freqgen

/-- A k-mer: a contiguous substring of a sequence, as a list of characters. -/
abbrev Kmer := List Char

/-- Modelled from the spec: the SequenceKmerizer (freqgen.kmers in
@freqgen/core, not present under src).  It slides a window of length k over
the sequence; each step advances by 1 when overlap is requested and by k
otherwise, stopping as soon as fewer than k characters remain (a trailing
fragment shorter than k is discarded, and a sequence shorter than k yields
the empty list). -/
def kmersList (s : List Char) (k : Nat) (overlap : Bool) : List Kmer :=
  if _h : 0 < k ∧ k ≤ s.length then
    s.take k :: kmersList (s.drop (if overlap then 1 else k)) k overlap
  else []
termination_by s.length
decreasing_by
  simp only [List.length_drop]
  split <;> omega

/-- With overlap, the kmerizer emits the window at every start position
0, 1, ..., len - k. -/
theorem kmersList_overlap_windows (k : Nat) (hk : 0 < k) :
    ∀ s : List Char,
      kmersList s k true
        = (List.range (s.length + 1 - k)).map (fun i => (s.drop i).take k) := by
  intro s
  induction s with
  | nil =>
    rw [kmersList, dif_neg (by rintro ⟨h1, h2⟩; simp at h2; omega)]
    have h0 : ([] : List Char).length + 1 - k = 0 := by simp; omega
    rw [h0]
    simp
  | cons c t ih =>
    rw [kmersList]
    by_cases hlen : k ≤ (c :: t).length
    · rw [dif_pos ⟨hk, hlen⟩]
      have hrange : (c :: t).length + 1 - k = (t.length + 1 - k) + 1 := by
        simp only [List.length_cons]
        simp only [List.length_cons] at hlen
        omega
      rw [hrange, List.range_succ_eq_map, List.map_cons, List.map_map]
      simp only [List.drop_zero]
      show List.take k (c :: t) :: kmersList t k true = _
      rw [List.cons_eq_cons]
      refine ⟨rfl, ?_⟩
      rw [ih]
      apply List.map_congr_left
      intro i _
      simp [Function.comp_apply, List.drop_succ_cons]
    · rw [dif_neg (by tauto)]
      have h0 : (c :: t).length + 1 - k = 0 := by
        simp only [List.length_cons]
        simp only [List.length_cons] at hlen
        omega
      rw [h0]
      simp

/-- Without overlap, the kmerizer emits the windows at start positions
0, k, 2k, ..., one for each of the floor(len / k) complete chunks. -/
theorem kmersList_nonoverlap_windows (k : Nat) (hk : 0 < k) :
    ∀ s : List Char,
      kmersList s k false
        = (List.range (s.length / k)).map (fun i => (s.drop (k * i)).take k) := by
  have main : ∀ n (s : List Char), s.length = n →
      kmersList s k false
        = (List.range (s.length / k)).map (fun i => (s.drop (k * i)).take k) := by
    intro n
    induction n using Nat.strong_induction_on with
    | _ n ih =>
      intro s hs
      rw [kmersList]
      by_cases hlen : k ≤ s.length
      · rw [dif_pos ⟨hk, hlen⟩]
        have hdroplen : (s.drop k).length = s.length - k := by simp
        have hdiv : s.length / k = (s.drop k).length / k + 1 := by
          rw [hdroplen]
          rw [Nat.div_eq_sub_div hk hlen]
        have hrec := ih (s.drop k).length (by omega) (s.drop k) rfl
        rw [hdiv, List.range_succ_eq_map, List.map_cons, List.map_map]
        show List.take k s :: kmersList (s.drop k) k false = _
        rw [List.cons_eq_cons]
        refine ⟨by simp, ?_⟩
        rw [hrec]
        apply List.map_congr_left
        intro i _
        simp only [Function.comp_apply, List.drop_drop]
        have hmul : k + k * i = k * Nat.succ i := by
          rw [Nat.succ_eq_add_one]
          ring
        rw [hmul]
      · rw [dif_neg (by tauto)]
        have : s.length / k = 0 := Nat.div_eq_of_lt (by omega)
        rw [this]
        simp
  intro s
  exact main s.length s rfl

/-- A k-mer count table: a JavaScript Map from k-mer to occurrence count,
as an association list in insertion order with unique keys. -/
abbrev KmerCount := List (Kmer × Nat)

/-- Looking a key up in a count table; a missing key counts as 0. -/
def lookupCount (m : KmerCount) (key : Kmer) : Nat :=
  match m with
  | [] => 0
  | (k, v) :: rest => if k = key then v else lookupCount rest key

/-- Adding n to one key of a count table, as Map.set(key, (get(key) or 0) + n)
does: an existing entry is updated in place, a new key is appended. -/
def bumpBy (m : KmerCount) (key : Kmer) (n : Nat) : KmerCount :=
  match m with
  | [] => [(key, n)]
  | (k, v) :: rest =>
    if k = key then (k, v + n) :: rest else (k, v) :: bumpBy rest key n

/-- Modelled from the spec: the FrequencyProfiler count operation
(freqgen.kmerCounts in @freqgen/core, not present under src).  It builds a
KmerCount from the produced k-mer sequence by incrementing per-key counts. -/
def kmerCounts (ks : List Kmer) : KmerCount :=
  ks.foldl (fun m key => bumpBy m key 1) []

/-- Modelled from the spec: the FrequencyProfiler merge operation (the
addMaps module required by cli.js, not present under src).  Key-wise sum:
every entry of the second table is added into the first. -/
def addMaps (a b : KmerCount) : KmerCount :=
  b.foldl (fun acc e => bumpBy acc e.1 e.2) a

/-- A count table is well formed when its keys are pairwise distinct, as
holds for every JavaScript Map. -/
def KeysNodup (m : KmerCount) : Prop := (m.map Prod.fst).Nodup

instance (m : KmerCount) : Decidable (KeysNodup m) := by
  unfold KeysNodup
  infer_instance

theorem lookupCount_bumpBy (m : KmerCount) (key x : Kmer) (n : Nat) :
    lookupCount (bumpBy m key n) x
      = lookupCount m x + if key = x then n else 0 := by
  induction m with
  | nil =>
    by_cases h : key = x <;> simp [bumpBy, lookupCount, h]
  | cons e rest ih =>
    obtain ⟨k, v⟩ := e
    by_cases hk : k = key
    · subst hk
      by_cases hx : k = x
      · subst hx
        simp [bumpBy, lookupCount]
      · simp [bumpBy, lookupCount, hx]
    · by_cases hx : k = x
      · subst hx
        simp [bumpBy, hk, lookupCount]
        intro h
        exact absurd h.symm hk
      · simp [bumpBy, hk, lookupCount, hx, ih]

/-- The multiset weight of one key in an entry list (counting duplicate
keys with multiplicity). -/
def entrySum (m : KmerCount) (x : Kmer) : Nat :=
  (m.map (fun e => if e.1 = x then e.2 else 0)).sum

theorem lookupCount_addMaps (a b : KmerCount) (x : Kmer) :
    lookupCount (addMaps a b) x = lookupCount a x + entrySum b x := by
  induction b generalizing a with
  | nil => simp [addMaps, entrySum]
  | cons e rest ih =>
    obtain ⟨k, v⟩ := e
    show lookupCount (addMaps (bumpBy a k v) rest) x = _
    rw [ih, lookupCount_bumpBy]
    simp only [entrySum, List.map_cons, List.sum_cons]
    by_cases h : k = x <;> simp [h] <;> omega

theorem entrySum_eq_lookupCount (m : KmerCount) (hm : KeysNodup m) (x : Kmer) :
    entrySum m x = lookupCount m x := by
  induction m with
  | nil => simp [entrySum, lookupCount]
  | cons e rest ih =>
    obtain ⟨k, v⟩ := e
    simp only [KeysNodup, List.map_cons, List.nodup_cons] at hm
    obtain ⟨hk, hrest⟩ := hm
    have hstep : entrySum ((k, v) :: rest) x
        = (if k = x then v else 0) + entrySum rest x := by
      simp [entrySum]
    rw [hstep]
    by_cases h : k = x
    · subst h
      have hzero : entrySum rest k = 0 := by
        simp only [entrySum]
        apply List.sum_eq_zero
        intro y hy
        simp only [List.mem_map] at hy
        obtain ⟨e2, he2, rfl⟩ := hy
        have hmem : e2.1 ∈ List.map Prod.fst rest := List.mem_map_of_mem Prod.fst he2
        have hne : e2.1 ≠ k := by
          intro hc
          rw [hc] at hmem
          exact hk hmem
        simp [hne]
      rw [hzero]
      simp [lookupCount]
    · rw [if_neg h, ih hrest]
      simp [lookupCount, h]

theorem lookupCount_kmerCounts (l : List Kmer) (x : Kmer) :
    lookupCount (kmerCounts l) x = l.count x := by
  have main : ∀ (l : List Kmer) (m : KmerCount),
      lookupCount (l.foldl (fun m key => bumpBy m key 1) m) x
        = lookupCount m x + l.count x := by
    intro l
    induction l with
    | nil => simp
    | cons key rest ih =>
      intro m
      simp only [List.foldl_cons]
      rw [ih, lookupCount_bumpBy, List.count_cons]
      by_cases h : key = x
      · subst h
        simp [List.count_cons]
        try omega
      · simp [List.count_cons, h, Ne.symm h]
        try omega
  have := main l []
  simpa [kmerCounts, lookupCount] using this

theorem mem_keys_bumpBy (m : KmerCount) (key x : Kmer) (n : Nat) :
    x ∈ (bumpBy m key n).map Prod.fst ↔ x ∈ m.map Prod.fst ∨ x = key := by
  induction m with
  | nil => simp [bumpBy]
  | cons e rest ih =>
    obtain ⟨k, v⟩ := e
    by_cases h : k = key
    · subst h
      have hb : bumpBy ((k, v) :: rest) k n = (k, v + n) :: rest := by
        simp [bumpBy]
      rw [hb]
      simp only [List.map_cons, List.mem_cons]
      tauto
    · have hb : bumpBy ((k, v) :: rest) key n = (k, v) :: bumpBy rest key n := by
        simp [bumpBy, h]
      rw [hb]
      simp only [List.map_cons, List.mem_cons, ih]
      tauto

theorem keysNodup_bumpBy (m : KmerCount) (key : Kmer) (n : Nat)
    (hm : KeysNodup m) : KeysNodup (bumpBy m key n) := by
  induction m with
  | nil => simp [bumpBy, KeysNodup]
  | cons e rest ih =>
    obtain ⟨k, v⟩ := e
    simp only [KeysNodup, List.map_cons, List.nodup_cons] at hm
    obtain ⟨hk, hrest⟩ := hm
    by_cases h : k = key
    · subst h
      have hb : bumpBy ((k, v) :: rest) k n = (k, v + n) :: rest := by
        simp [bumpBy]
      rw [hb]
      simp only [KeysNodup, List.map_cons, List.nodup_cons]
      exact ⟨hk, hrest⟩
    · have hb : bumpBy ((k, v) :: rest) key n = (k, v) :: bumpBy rest key n := by
        simp [bumpBy, h]
      rw [hb]
      simp only [KeysNodup, List.map_cons, List.nodup_cons]
      refine ⟨?_, ih hrest⟩
      rw [mem_keys_bumpBy]
      rintro (hmem | rfl)
      · exact hk hmem
      · exact h rfl

theorem keysNodup_addMaps (a b : KmerCount) (ha : KeysNodup a) :
    KeysNodup (addMaps a b) := by
  induction b generalizing a with
  | nil => exact ha
  | cons e rest ih =>
    show KeysNodup (addMaps (bumpBy a e.1 e.2) rest)
    exact ih _ (keysNodup_bumpBy a e.1 e.2 ha)

theorem keysNodup_kmerCounts (l : List Kmer) : KeysNodup (kmerCounts l) := by
  have main : ∀ (l : List Kmer) (m : KmerCount), KeysNodup m →
      KeysNodup (l.foldl (fun m key => bumpBy m key 1) m) := by
    intro l
    induction l with
    | nil => exact fun m hm => hm
    | cons key rest ih =>
      intro m hm
      exact ih _ (keysNodup_bumpBy m key 1 hm)
  exact main l [] (by simp [KeysNodup])

/-- The per-sequence merge step of the featurize loop (cli.js lines 49-57):
the first sequence initializes the running table, later sequences are merged
in with addMaps. -/
def aggStep (k : Nat) (acc : Option KmerCount) (s : List Char) : Option KmerCount :=
  match acc with
  | some m => some (addMaps m (kmerCounts (kmersList s k true)))
  | none => some (kmerCounts (kmersList s k true))

/-- The aggregate k-mer count table produced for one k value by iterating the
featurize loop body over all sequences in order (none when there are no
sequences, exactly as cli.js leaves the Map entry unset). -/
def aggregateForK (seqs : List (List Char)) (k : Nat) : Option KmerCount :=
  seqs.foldl (aggStep k) none

/-- Count lookup through the optional table; an absent table counts as 0. -/
def optLookup (o : Option KmerCount) (x : Kmer) : Nat :=
  match o with
  | some m => lookupCount m x
  | none => 0

/-- Aggregate lookup for one k value across a sequence corpus. -/
def aggLookup (seqs : List (List Char)) (k : Nat) (x : Kmer) : Nat :=
  optLookup (aggregateForK seqs k) x

theorem foldl_aggStep_some (k : Nat) (x : Kmer) :
    ∀ (seqs : List (List Char)) (m : KmerCount),
      optLookup (seqs.foldl (aggStep k) (some m)) x
        = lookupCount m x + (seqs.map fun s => (kmersList s k true).count x).sum := by
  intro seqs
  induction seqs with
  | nil => intro m; simp [optLookup]
  | cons s rest ih =>
    intro m
    show optLookup (rest.foldl (aggStep k)
      (some (addMaps m (kmerCounts (kmersList s k true)))) ) x = _
    rw [ih, lookupCount_addMaps,
      entrySum_eq_lookupCount _ (keysNodup_kmerCounts _) x,
      lookupCount_kmerCounts]
    simp only [List.map_cons, List.sum_cons]
    omega

theorem aggLookup_eq_sum (seqs : List (List Char)) (k : Nat) (x : Kmer) :
    aggLookup seqs k x = (seqs.map fun s => (kmersList s k true).count x).sum := by
  cases seqs with
  | nil => simp [aggLookup, aggregateForK, optLookup]
  | cons s rest =>
    show optLookup (rest.foldl (aggStep k) (some (kmerCounts (kmersList s k true)))) x = _
    rw [foldl_aggStep_some, lookupCount_kmerCounts]
    simp only [List.map_cons, List.sum_cons]

/-- The k-mer path of the featurize action (cli.js line 50): counts are taken
over the overlapping k-mers of the sequence. -/
def kmerCountsOf (s : List Char) (k : Nat) : KmerCount :=
  kmerCounts (kmersList s k true)

/-- The codon path of the featurize action (cli.js lines 64-66): counts are
taken over the non-overlapping 3-mers of the sequence. -/
def codonCountsOf (s : List Char) : KmerCount :=
  kmerCounts (kmersList s 3 false)

/-- C3: codon counting counts the non-overlapping length-3 substrings at
positions 0, 3, 6, ... (reading frame from position 0, trailing fragment
discarded), while k-mer counting for a requested k counts the overlapping
substrings at every position 0..len-k. -/
theorem C3_codon_frames_and_kmer_windows (s : List Char) (k : Nat) (hk : 0 < k) :
    codonCountsOf s
        = kmerCounts ((List.range (s.length / 3)).map fun i => (s.drop (3 * i)).take 3)
    ∧ kmerCountsOf s k
        = kmerCounts ((List.range (s.length + 1 - k)).map fun i => (s.drop i).take k) := by
  constructor
  · show kmerCounts (kmersList s 3 false) = _
    rw [kmersList_nonoverlap_windows 3 (by norm_num) s]
  · show kmerCounts (kmersList s k true) = _
    rw [kmersList_overlap_windows k hk s]

/-- Concrete instance of C3 at the sequence ACGTAC and k = 2. -/
theorem C3_codon_frames_and_kmer_windows_witness :
    (0 : Nat) < 2
    ∧ codonCountsOf ['A', 'C', 'G', 'T', 'A', 'C']
        = kmerCounts ((List.range (['A', 'C', 'G', 'T', 'A', 'C'].length / 3)).map
            fun i => (['A', 'C', 'G', 'T', 'A', 'C'].drop (3 * i)).take 3)
    ∧ kmerCountsOf ['A', 'C', 'G', 'T', 'A', 'C'] 2
        = kmerCounts ((List.range (['A', 'C', 'G', 'T', 'A', 'C'].length + 1 - 2)).map
            fun i => (['A', 'C', 'G', 'T', 'A', 'C'].drop i).take 2) :=
  ⟨by norm_num,
    (C3_codon_frames_and_kmer_windows ['A', 'C', 'G', 'T', 'A', 'C'] 2 (by norm_num)).1,
    (C3_codon_frames_and_kmer_windows ['A', 'C', 'G', 'T', 'A', 'C'] 2 (by norm_num)).2⟩

/-- C6: merging count tables is commutative and associative (as maps, i.e.
under lookup), merging the per-sequence counts of two k-mer streams equals
counting both streams as one combined multiset, and the per-k aggregate of
the featurize loop over a sequence corpus is invariant under reordering the
corpus. -/
theorem C6_merge_commutative_associative_multiset
    (a b c : KmerCount) (l1 l2 : List Kmer)
    (seqs1 seqs2 : List (List Char)) (k : Nat) (x : Kmer)
    (ha : KeysNodup a) (hb : KeysNodup b)
    (hperm : seqs1.Perm seqs2) :
    lookupCount (addMaps a b) x = lookupCount (addMaps b a) x
    ∧ lookupCount (addMaps (addMaps a b) c) x
        = lookupCount (addMaps a (addMaps b c)) x
    ∧ lookupCount (addMaps (kmerCounts l1) (kmerCounts l2)) x = (l1 ++ l2).count x
    ∧ aggLookup seqs1 k x = aggLookup seqs2 k x := by
  refine ⟨?_, ?_, ?_, ?_⟩
  · rw [lookupCount_addMaps, lookupCount_addMaps,
      entrySum_eq_lookupCount a ha x, entrySum_eq_lookupCount b hb x]
    omega
  · rw [lookupCount_addMaps, lookupCount_addMaps, lookupCount_addMaps,
      entrySum_eq_lookupCount (addMaps b c) (keysNodup_addMaps b c hb) x,
      lookupCount_addMaps, entrySum_eq_lookupCount b hb x]
    omega
  · rw [lookupCount_addMaps,
      entrySum_eq_lookupCount _ (keysNodup_kmerCounts l2) x,
      lookupCount_kmerCounts, lookupCount_kmerCounts, List.count_append]
  · rw [aggLookup_eq_sum, aggLookup_eq_sum]
    exact (hperm.map fun s => (kmersList s k true).count x).sum_eq

/-- Concrete instance of C6 on two singleton tables, two short k-mer streams
and a two-sequence corpus with its reversal. -/
theorem C6_merge_commutative_associative_multiset_witness :
    KeysNodup [(['A'], 2)] ∧ KeysNodup [(['C'], 1)]
    ∧ List.Perm [['A', 'C'], ['G']] [['G'], ['A', 'C']]
    ∧ lookupCount (addMaps [(['A'], 2)] [(['C'], 1)]) ['A']
        = lookupCount (addMaps [(['C'], 1)] [(['A'], 2)]) ['A']
    ∧ lookupCount (addMaps (kmerCounts [['A'], ['C']]) (kmerCounts [['A']])) ['A']
        = ([['A'], ['C']] ++ [['A']]).count ['A']
    ∧ aggLookup [['A', 'C'], ['G']] 1 ['A'] = aggLookup [['G'], ['A', 'C']] 1 ['A'] := by
  have hperm : List.Perm [['A', 'C'], ['G']] [['G'], ['A', 'C']] :=
    List.Perm.swap _ _ _
  have ha : KeysNodup [((['A'] : Kmer), 2)] := by simp [KeysNodup]
  have hb : KeysNodup [((['C'] : Kmer), 1)] := by simp [KeysNodup]
  have h := C6_merge_commutative_associative_multiset
    [(['A'], 2)] [(['C'], 1)] [] [['A'], ['C']] [['A']]
    [['A', 'C'], ['G']] [['G'], ['A', 'C']] 1 ['A'] ha hb hperm
  exact ⟨ha, hb, hperm, h.1, h.2.2.1, h.2.2.2⟩

/-- A genetic code: the mapping from codons to amino acids, none for an
unrecognized codon.  Read-only for the lifetime of a run. -/
abbrev GeneticCode := Kmer → Option Char

/-- Modelled from the spec: codon-by-codon translation of a codon list under
the active genetic code (the core of freqgen.translate, @freqgen/core not
present under src); fails when any codon is unrecognized. -/
def translateCodons (code : GeneticCode) : List Kmer → Option (List Char)
  | [] => some []
  | c :: cs =>
    match code c, translateCodons code cs with
    | some a, some p => some (a :: p)
    | _, _ => none

/-- The codon list spells the protein letter by letter. -/
def Encodes (code : GeneticCode) (cs : List Kmer) (p : List Char) : Prop :=
  List.Forall₂ (fun c a => code c = some a) cs p

theorem translateCodons_eq_some_iff (code : GeneticCode) :
    ∀ (cs : List Kmer) (p : List Char),
      translateCodons code cs = some p ↔ Encodes code cs p := by
  intro cs
  induction cs with
  | nil =>
    intro p
    cases p <;> simp [translateCodons, Encodes]
  | cons c cs ih =>
    intro p
    cases hc : code c with
    | none =>
      have hnone : translateCodons code (c :: cs) = none := by
        simp [translateCodons, hc]
      rw [hnone]
      constructor
      · intro h
        cases h
      · intro h
        cases p with
        | nil => cases h
        | cons a q =>
          cases h with
          | cons h1 h2 =>
            rw [hc] at h1
            cases h1
    | some b =>
      cases p with
      | nil =>
        constructor
        · intro h
          cases ht : translateCodons code cs <;> simp [translateCodons, hc, ht] at h
        · intro h
          cases h
      | cons a q =>
        constructor
        · intro h
          cases ht : translateCodons code cs with
          | none => simp [translateCodons, hc, ht] at h
          | some r =>
            simp only [translateCodons, hc, ht, Option.some.injEq, List.cons.injEq] at h
            obtain ⟨hba, hrq⟩ := h
            refine List.Forall₂.cons ?_ ?_
            · rw [hc, hba]
            · rw [← hrq]
              exact (ih r).mp ht
        · intro h
          cases h with
          | cons h1 h2 =>
            have hq := (ih q).mpr h2
            simp [translateCodons, hc, hq]
            rw [hc] at h1
            exact Option.some.inj h1

/-- C4 reachable-individual relation, modelled from the spec: generation 0
individuals pick a synonym for every amino-acid position; mutation replaces
one codon by a synonym of the amino acid at that position; crossover splices
two individuals at a codon boundary.  Every individual of every generation
of the optimizer is built by these three operations. -/
inductive ValidIndividual (code : GeneticCode) (p : List Char) : List Kmer → Prop
  | init (cs : List Kmer) (hlen : cs.length = p.length)
      (hsyn : ∀ i (h1 : i < cs.length) (h2 : i < p.length),
        code (cs.get ⟨i, h1⟩) = some (p.get ⟨i, h2⟩)) :
      ValidIndividual code p cs
  | mutate (cs : List Kmer) (i : Nat) (c : Kmer)
      (hv : ValidIndividual code p cs)
      (h2 : i < p.length)
      (hsyn : code c = some (p.get ⟨i, h2⟩)) :
      ValidIndividual code p (cs.set i c)
  | cross (a b : List Kmer) (i : Nat)
      (hva : ValidIndividual code p a) (hvb : ValidIndividual code p b) :
      ValidIndividual code p (a.take i ++ b.drop i)

theorem encodes_of_valid {code : GeneticCode} {p : List Char} {cs : List Kmer}
    (hv : ValidIndividual code p cs) : Encodes code cs p := by
  induction hv with
  | init cs hlen hsyn =>
    exact List.forall₂_of_length_eq_of_get hlen hsyn
  | mutate cs i c hv h2 hsyn ih =>
    rw [Encodes, List.forall₂_iff_get] at ih ⊢
    obtain ⟨hlen, hget⟩ := ih
    refine ⟨by simpa using hlen, ?_⟩
    intro j hj1 hj2
    by_cases hji : i = j
    · subst hji
      have hi : i < cs.length := by simpa using hj1
      simp only [List.get_eq_getElem] at *
      rw [List.getElem_set_eq (by simpa using hj1)]
      exact hsyn
    · simp only [List.get_eq_getElem] at *
      rw [List.getElem_set_ne hji]
      exact hget j (by simpa using hj1) hj2
  | cross a b i hva hvb iha ihb =>
    have h : List.Forall₂ (fun c a => code c = some a)
        (List.take i a ++ List.drop i b) (List.take i p ++ List.drop i p) :=
      List.rel_append (List.forall₂_take i iha) (List.forall₂_drop i ihb)
    rw [List.take_append_drop] at h
    exact h

/-- C4: every Individual reachable in any generation (initialization from
per-position synonyms, synonym mutation, codon-boundary crossover) has a
sequence that translates codon-for-codon to exactly the fixed input protein:
the operators preserve protein identity by construction. -/
theorem C4_individuals_translate_to_protein (code : GeneticCode)
    (p : List Char) (cs : List Kmer) (hv : ValidIndividual code p cs) :
    translateCodons code cs = some p :=
  (translateCodons_eq_some_iff code cs p).mpr (encodes_of_valid hv)

/-- A two-amino-acid genetic code fragment used for concrete instances:
K is encoded by AAA and AAG, F by TTT and TTC. -/
def demoCode : GeneticCode := fun c =>
  if c = ['A', 'A', 'A'] ∨ c = ['A', 'A', 'G'] then some 'K'
  else if c = ['T', 'T', 'T'] ∨ c = ['T', 'T', 'C'] then some 'F'
  else none

/-- Concrete instance of C4: the individual AAA TTT for protein KF, with the
first codon mutated to the synonym AAG, still translates to KF. -/
theorem C4_individuals_translate_to_protein_witness :
    ValidIndividual demoCode ['K', 'F']
      ([[ 'A', 'A', 'A'], ['T', 'T', 'T']].set 0 ['A', 'A', 'G'])
    ∧ translateCodons demoCode
        ([[ 'A', 'A', 'A'], ['T', 'T', 'T']].set 0 ['A', 'A', 'G'])
      = some ['K', 'F'] := by
  have hinit : ValidIndividual demoCode ['K', 'F'] [['A', 'A', 'A'], ['T', 'T', 'T']] :=
    ValidIndividual.init _ (by decide) (by decide)
  have hv := ValidIndividual.mutate _ 0 ['A', 'A', 'G'] hinit (by decide) (by decide)
  exact ⟨hv, C4_individuals_translate_to_protein demoCode ['K', 'F'] _ hv⟩

/-- Splitting a DNA sequence into consecutive codons; fails (none) when the
length is not a multiple of 3. -/
def chunk3 : List Char → Option (List Kmer)
  | [] => some []
  | a :: b :: c :: rest => (chunk3 rest).map (fun cs => [a, b, c] :: cs)
  | _ => none

/-- Modelled from the spec: freqgen.translate (@freqgen/core, not present
under src): non-overlapping triplet lookup from position 0, failing on a
non-multiple-of-3 length or an unrecognized codon. -/
def translate (code : GeneticCode) (s : List Char) : Option (List Char) :=
  (chunk3 s).bind (translateCodons code)

/-- The generate action's input preparation (cli.js lines 180-182): with the
dna flag the FASTA sequence is translated first under the selected genetic
code, otherwise it is used as the amino-acid sequence unchanged. -/
def prepareSeq (dna : Bool) (code : GeneticCode) (s : List Char) : Option (List Char) :=
  if dna then translate code s else some s

/-- C8: with the dna flag, the input sequence is first translated
codon-for-codon under the selected genetic code and the translation result
is the protein used for generation; without the flag the input is used
unchanged. -/
theorem C8_dna_flag_translates_first (code : GeneticCode) (s : List Char)
    (cs : List Kmer) (hchunk : chunk3 s = some cs) :
    prepareSeq false code s = some s
    ∧ prepareSeq true code s = translate code s
    ∧ prepareSeq true code s = translateCodons code cs := by
  refine ⟨rfl, rfl, ?_⟩
  show translate code s = _
  rw [translate, hchunk]
  rfl

/-- Concrete instance of C8 at the DNA sequence AAATTT under the demo code. -/
theorem C8_dna_flag_translates_first_witness :
    chunk3 ['A', 'A', 'A', 'T', 'T', 'T'] = some [['A', 'A', 'A'], ['T', 'T', 'T']]
    ∧ prepareSeq false demoCode ['A', 'A', 'A', 'T', 'T', 'T']
        = some ['A', 'A', 'A', 'T', 'T', 'T']
    ∧ prepareSeq true demoCode ['A', 'A', 'A', 'T', 'T', 'T']
        = translateCodons demoCode [['A', 'A', 'A'], ['T', 'T', 'T']] :=
  ⟨rfl,
    (C8_dna_flag_translates_first demoCode ['A', 'A', 'A', 'T', 'T', 'T']
      [['A', 'A', 'A'], ['T', 'T', 'T']] rfl).1,
    (C8_dna_flag_translates_first demoCode ['A', 'A', 'A', 'T', 'T', 'T']
      [['A', 'A', 'A'], ['T', 'T', 'T']] rfl).2.2⟩

/-- The best Individual of one optimizer run: the DNA sequence (the entity
field of the result) and its fitness. -/
structure Individual where
  entity : List Char
  fitness : ℚ
deriving DecidableEq

/-- The result list built by the evolvePopulations loop of the generate
action (cli.js lines 198-217): the best individual of each of the popCount
independent population runs, in run order. -/
def fittestInPopulations (popCount : Nat) (runBest : Nat → Individual) :
    List Individual :=
  (List.range popCount).map runBest

/-- The RunResult the generate action reports and returns (cli.js lines 221,
246, 254 and 261): element 0 of fittestInPopulations, i.e. always the first
population's result. -/
def reportedResult (popCount : Nat) (runBest : Nat → Individual) :
    Option Individual :=
  (fittestInPopulations popCount runBest).head?

/-- Two concrete population outcomes: the first run ends at fitness 5, the
second at the strictly better fitness 3. -/
def twoRunOutcomes : Nat → Individual := fun i =>
  if i = 0 then ⟨['A', 'T', 'G'], 5⟩ else ⟨['G', 'T', 'A'], 3⟩

/-- C1 fails on the code: with popCount = 2 and a second population ending
strictly fitter, the generate action still reports and returns the first
population's individual (fitness 5), not the globally fittest one (fitness
3) that is present in fittestInPopulations — cli.js reads
fittestInPopulations[0] and never selects a minimum. -/
theorem C1_reported_result_is_first_not_best :
    reportedResult 2 twoRunOutcomes = some ⟨['A', 'T', 'G'], 5⟩
    ∧ Individual.mk ['G', 'T', 'A'] 3 ∈ fittestInPopulations 2 twoRunOutcomes
    ∧ (3 : ℚ) < 5 := by
  refine ⟨rfl, ?_, by norm_num⟩
  show Individual.mk ['G', 'T', 'A'] 3 ∈ (List.range 2).map twoRunOutcomes
  simp only [List.range_succ, List.range_zero, List.map_append, List.map_cons,
    List.map_nil, List.nil_append, List.mem_append, List.mem_cons]
  right
  left
  rfl

/-- Outcome of the featurize action's input guard. -/
inductive FeaturizeOutcome
  | noTargetError
  | proceeds
deriving DecidableEq

/-- The featurize action's guard (cli.js lines 32-37): it fails when and
only when the kMers option is absent; the codons flag is not consulted. -/
def featurizeGuard (kMers : Option (List Nat)) (codons : Bool) :
    FeaturizeOutcome :=
  match kMers, codons with
  | none, _ => .noTargetError
  | some _, _ => .proceeds

/-- C2 fails on the code: an invocation that requests codons but gives no k
values (kMers absent, codons flag set) is rejected with the
no-target-specified failure, although the claim (and the error message
printed by cli.js itself) says codon-only featurization proceeds.  The
guard's outcome never depends on the codons flag. -/
theorem C2_codons_only_invocation_still_fails :
    featurizeGuard none true = FeaturizeOutcome.noTargetError
    ∧ featurizeGuard none false = FeaturizeOutcome.noTargetError
    ∧ ∀ ks : List Nat, featurizeGuard (some ks) false = FeaturizeOutcome.proceeds :=
  ⟨rfl, rfl, fun _ => rfl⟩

/-- The configuration error kinds of the spec's InvalidConfigError. -/
inductive ConfigError
  | invalidRelTol
  | invalidPopulationSize
  | invalidPopCount
deriving DecidableEq

/-- The generation options subject to eager validation. -/
structure GenConfig where
  relTol : ℚ
  populationSize : Int
  popCount : Int
deriving DecidableEq

/-- Modelled from the spec: eager configuration validation (InvalidConfigError
for relTol outside [0,1] or a non-positive populationSize or popCount),
performed in the core before any optimizer work begins; the validating code
is in @freqgen/core, not present under src. -/
def checkConfig (c : GenConfig) : Option ConfigError :=
  if c.relTol < 0 ∨ 1 < c.relTol then some .invalidRelTol
  else if c.populationSize ≤ 0 then some .invalidPopulationSize
  else if c.popCount ≤ 0 then some .invalidPopCount
  else none

/-- Modelled from the spec: the generate entry point validates the
configuration first and only on success invokes the optimizer. -/
def generateChecked (c : GenConfig) (optimize : GenConfig → Individual) :
    Except ConfigError Individual :=
  match checkConfig c with
  | some e => .error e
  | none => .ok (optimize c)

theorem checkConfig_eq_none_iff (c : GenConfig) :
    checkConfig c = none
      ↔ 0 ≤ c.relTol ∧ c.relTol ≤ 1 ∧ 0 < c.populationSize ∧ 0 < c.popCount := by
  rw [checkConfig]
  split_ifs with h1 h2 h3
  · constructor
    · intro h
      simp at h
    · rintro ⟨ha, hb, _, _⟩
      rcases h1 with h | h
      · linarith
      · linarith
  · constructor
    · intro h
      simp at h
    · rintro ⟨_, _, hc, _⟩
      omega
  · constructor
    · intro h
      simp at h
    · rintro ⟨_, _, _, hd⟩
      omega
  · constructor
    · intro _
      push_neg at h1
      exact ⟨h1.1, h1.2, by omega, by omega⟩
    · intro _
      rfl

/-- C5: a relTol outside [0,1] or a non-positive populationSize or popCount
is detected eagerly — the outcome is a config error that does not depend on
the optimizer in any way, so no optimizer work happens — and surfaced to the
caller, never silently recovered; conversely a well-formed configuration
passes the check. -/
theorem C5_invalid_config_detected_eagerly (c : GenConfig) :
    (checkConfig c = none
      ↔ 0 ≤ c.relTol ∧ c.relTol ≤ 1 ∧ 0 < c.populationSize ∧ 0 < c.popCount)
    ∧ ∀ e, checkConfig c = some e →
        ∀ opt1 opt2 : GenConfig → Individual,
          generateChecked c opt1 = Except.error e
          ∧ generateChecked c opt1 = generateChecked c opt2 := by
  refine ⟨checkConfig_eq_none_iff c, ?_⟩
  intro e he opt1 opt2
  constructor
  · simp [generateChecked, he]
  · simp [generateChecked, he]

/-- Concrete instance of C5: relTol = 2 is rejected before the optimizer
(here a dummy optimizer) is ever consulted. -/
theorem C5_invalid_config_detected_eagerly_witness :
    checkConfig ⟨2, 100, 1⟩ = some ConfigError.invalidRelTol
    ∧ generateChecked ⟨2, 100, 1⟩ (fun _ => ⟨[], 0⟩)
        = Except.error ConfigError.invalidRelTol := by
  have hchk : checkConfig ⟨2, 100, 1⟩ = some ConfigError.invalidRelTol := by
    rw [checkConfig]
    norm_num
  exact ⟨hchk,
    ((C5_invalid_config_detected_eagerly ⟨2, 100, 1⟩).2 ConfigError.invalidRelTol hchk
      (fun _ => ⟨[], 0⟩) (fun _ => ⟨[], 0⟩)).1⟩

/-- A parsed top-level key of the target-frequency document: either the
literal string codons, or the result of JavaScript Number coercion of the
key, where none models NaN. -/
inductive FreqKey
  | codons
  | num (v : Option ℚ)
deriving DecidableEq

/-- The key coercion of the generate action (cli.js line 170): a key equal
to the string codons is kept as is, every other key goes through Number;
toNum abstracts the JavaScript Number coercion, none modelling NaN. -/
def parseFreqKey (toNum : String → Option ℚ) (s : String) : FreqKey :=
  if s = "codons" then .codons else .num (toNum s)

/-- The top-level key mapping of the generate action's frequency parsing
(cli.js lines 168-173): every entry of the document is kept with its parsed
key; no entry is filtered out or rejected. -/
def parseFreqEntries {α : Type _} (toNum : String → Option ℚ)
    (entries : List (String × α)) : List (FreqKey × α) :=
  entries.map (fun e => (parseFreqKey toNum e.1, e.2))

/-- C10: every top-level key other than the literal codons is coerced with
Number, and an entry whose key is not numeric (Number gives NaN, modelled as
none) is kept and passed through silently: the entry count is preserved and
the NaN-keyed entry appears in the parsed result rather than causing an
error. -/
theorem C10_non_numeric_keys_pass_through {α : Type _}
    (toNum : String → Option ℚ) (entries : List (String × α)) :
    (parseFreqEntries toNum entries).length = entries.length
    ∧ (∀ e ∈ entries, e.1 ≠ "codons" →
        (FreqKey.num (toNum e.1), e.2) ∈ parseFreqEntries toNum entries)
    ∧ (∀ e ∈ entries, e.1 = "codons" →
        (FreqKey.codons, e.2) ∈ parseFreqEntries toNum entries) := by
  refine ⟨by simp [parseFreqEntries], ?_, ?_⟩
  · intro e he hne
    have hmem : (parseFreqKey toNum e.1, e.2)
        ∈ parseFreqEntries toNum entries :=
      List.mem_map_of_mem _ he
    rwa [parseFreqKey, if_neg hne] at hmem
  · intro e he heq
    have hmem : (parseFreqKey toNum e.1, e.2)
        ∈ parseFreqEntries toNum entries :=
      List.mem_map_of_mem _ he
    rwa [parseFreqKey, if_pos heq] at hmem

/-- Concrete instance of C10: under a Number model that cannot parse the key
(NaN everywhere), a non-codons entry still flows through with a NaN key. -/
theorem C10_non_numeric_keys_pass_through_witness :
    "kmers3" ≠ "codons"
    ∧ (FreqKey.num none, (0 : ℚ))
        ∈ parseFreqEntries (fun _ => none) [("kmers3", (0 : ℚ))] :=
  ⟨by decide,
    (C10_non_numeric_keys_pass_through (fun _ => none) [("kmers3", (0 : ℚ))]).2.1
      ("kmers3", (0 : ℚ)) (by simp) (by decide)⟩

/-- Modelled from the spec: the FrequencyProfiler normalize operation
(freqgen.kmerFrequencies in @freqgen/core, not present under src): every
count divided by the total count. -/
def kmerFrequencies (m : KmerCount) : List (Kmer × ℚ) :=
  m.map (fun e => ((e.1 : Kmer), (e.2 : ℚ) / ((m.map (fun f => (f.2 : ℚ))).sum)))

/-- Frequency lookup in a profile; a missing key has frequency 0. -/
def lookupFreq (m : List (Kmer × ℚ)) (key : Kmer) : ℚ :=
  match m with
  | [] => 0
  | (k, v) :: rest => if k = key then v else lookupFreq rest key

/-- A target-profile key: one per requested k value, plus codons. -/
inductive ProfileKey
  | codons
  | kval (k : Nat)
deriving DecidableEq

/-- Modelled from the spec: the individual's own profile for one target key,
computed by kmerization, counting and normalization, with k-mer framing for
a k value and codon framing for the codons key. -/
def ownProfileFor (seq : List Char) : ProfileKey → List (Kmer × ℚ)
  | .codons => kmerFrequencies (codonCountsOf seq)
  | .kval k => kmerFrequencies (kmerCountsOf seq k)

/-- Modelled from the spec: the per-key discrepancy: the sum of squared
differences between matching keys' frequencies, a key missing on either
side counting as frequency 0. -/
def sqDiff (t own : List (Kmer × ℚ)) : ℚ :=
  (((t.map Prod.fst ++ own.map Prod.fst).dedup).map
    (fun key => (lookupFreq t key - lookupFreq own key) ^ 2)).sum

/-- Modelled from the spec: the scalar fitness of a sequence against the
whole target set: per-key discrepancies summed over all requested keys
(lower is better). -/
def fitnessFor (targets : List (ProfileKey × List (Kmer × ℚ)))
    (seq : List Char) : ℚ :=
  (targets.map (fun t => sqDiff t.2 (ownProfileFor seq t.1))).sum

/-- The fitness cache: a map from exact sequence content to the previously
computed fitness value. -/
abbrev FitnessCache := List (List Char × ℚ)

/-- Cache lookup by exact sequence content. -/
def cacheLookup (cache : FitnessCache) (seq : List Char) : Option ℚ :=
  match cache with
  | [] => none
  | (s, v) :: rest => if s = seq then some v else cacheLookup rest seq

/-- Modelled from the spec: evaluation with the cache enabled: a hit returns
the stored value without recomputation, a miss computes the fitness and
stores it under the sequence content. -/
def evaluateCached (targets : List (ProfileKey × List (Kmer × ℚ)))
    (cache : FitnessCache) (seq : List Char) : ℚ × FitnessCache :=
  match cacheLookup cache seq with
  | some v => (v, cache)
  | none => (fitnessFor targets seq, (seq, fitnessFor targets seq) :: cache)

/-- Modelled from the spec: evaluation with the cache disabled always
recomputes the fitness. -/
def evaluateUncached (targets : List (ProfileKey × List (Kmer × ℚ)))
    (seq : List Char) : ℚ :=
  fitnessFor targets seq

/-- A cache is consistent when every stored entry equals the recomputed
fitness of its sequence; a cold cache is trivially consistent, and every
cache an optimizer run builds stays consistent. -/
def CacheConsistent (targets : List (ProfileKey × List (Kmer × ℚ)))
    (cache : FitnessCache) : Prop :=
  ∀ e ∈ cache, e.2 = fitnessFor targets e.1

theorem cacheLookup_consistent
    (targets : List (ProfileKey × List (Kmer × ℚ))) (cache : FitnessCache)
    (hc : CacheConsistent targets cache) (seq : List Char) (v : ℚ)
    (hl : cacheLookup cache seq = some v) : v = fitnessFor targets seq := by
  induction cache with
  | nil => simp [cacheLookup] at hl
  | cons e rest ih =>
    obtain ⟨s, w⟩ := e
    by_cases hs : s = seq
    · subst hs
      have hw : w = v := by
        simpa [cacheLookup] using hl
      rw [← hw]
      exact hc (s, w) (List.mem_cons_self _ _)
    · simp only [cacheLookup, if_neg hs] at hl
      exact ih (fun e he => hc e (List.mem_cons_of_mem _ he)) hl

/-- C7: fitness evaluation is deterministic for a fixed sequence and target
set.  Against any consistent cache (in particular a cold one) the cached
evaluator returns exactly the value the uncached evaluator computes, the
cache it leaves behind is again consistent, and the empty (cold) cache is
consistent. -/
theorem C7_fitness_deterministic_with_or_without_cache
    (targets : List (ProfileKey × List (Kmer × ℚ))) (cache : FitnessCache)
    (seq : List Char) (hc : CacheConsistent targets cache) :
    (evaluateCached targets cache seq).1 = evaluateUncached targets seq
    ∧ CacheConsistent targets (evaluateCached targets cache seq).2
    ∧ CacheConsistent targets ([] : FitnessCache) := by
  refine ⟨?_, ?_, by intro e he; simp at he⟩
  · cases hl : cacheLookup cache seq with
    | none => simp [evaluateCached, hl, evaluateUncached]
    | some v =>
      simp only [evaluateCached, hl]
      exact cacheLookup_consistent targets cache hc seq v hl
  · cases hl : cacheLookup cache seq with
    | none =>
      simp only [evaluateCached, hl]
      intro e he
      rcases List.mem_cons.mp he with h | h
      · subst h
        rfl
      · exact hc e h
    | some v =>
      simp only [evaluateCached, hl]
      exact hc

/-- A one-key target set used for the concrete instance: monomer frequencies
with A and C at one half each. -/
def demoTargets : List (ProfileKey × List (Kmer × ℚ)) :=
  [(ProfileKey.kval 1, [(['A'], 1 / 2), (['C'], 1 / 2)])]

/-- Concrete instance of C7: on a cold cache, the cached evaluator computes
exactly the uncached value for the sequence AC. -/
theorem C7_fitness_deterministic_with_or_without_cache_witness :
    CacheConsistent demoTargets []
    ∧ (evaluateCached demoTargets [] ['A', 'C']).1
        = evaluateUncached demoTargets ['A', 'C'] := by
  have hcold : CacheConsistent demoTargets [] := by
    intro e he
    simp at he
  exact ⟨hcold,
    (C7_fitness_deterministic_with_or_without_cache demoTargets [] ['A', 'C'] hcold).1⟩

/-- JavaScript Set deduplication as used by the spread of new Set(list)
(cli.js line 13): the first occurrence of every element is kept, in
insertion order. -/
def jsSetDedup {α : Type _} [DecidableEq α] : List α → List α
  | [] => []
  | x :: xs => x :: jsSetDedup (xs.filter (fun y => y ≠ x))
termination_by l => l.length
decreasing_by
  simp only [List.length_cons]
  exact Nat.lt_succ_of_le (List.length_filter_le _ xs)

/-- The -k option parser commaSeparatedIntList (cli.js lines 12-14): split
the option value on commas, parse each piece with parseInt (abstracted by
parse, none modelling NaN) and deduplicate the parsed values with new Set. -/
def commaSeparatedIntList (parse : String → Option Int) (value : String) :
    List (Option Int) :=
  jsSetDedup ((value.splitOn ",").map parse)

theorem jsSetDedup_cons {α : Type _} [DecidableEq α] (y : α) (ys : List α) :
    jsSetDedup (y :: ys) = y :: jsSetDedup (ys.filter (fun z => z ≠ y)) := by
  simp [jsSetDedup]

theorem mem_jsSetDedup {α : Type _} [DecidableEq α] (l : List α) (x : α) :
    x ∈ jsSetDedup l ↔ x ∈ l := by
  have main : ∀ n (l : List α), l.length = n → ∀ x, (x ∈ jsSetDedup l ↔ x ∈ l) := by
    intro n
    induction n using Nat.strong_induction_on with
    | _ n ih =>
      intro l hl x
      cases l with
      | nil => simp [jsSetDedup]
      | cons y ys =>
        have hlen : (ys.filter (fun z => z ≠ y)).length < n := by
          subst hl
          simp only [List.length_cons]
          exact Nat.lt_succ_of_le (List.length_filter_le _ ys)
        have ihf := ih _ hlen (ys.filter (fun z => z ≠ y)) rfl x
        rw [jsSetDedup_cons]
        simp only [List.mem_cons, ihf, List.mem_filter, decide_eq_true_eq]
        by_cases hxy : x = y
        · simp [hxy]
        · simp [hxy]
  exact main l.length l rfl x

theorem nodup_jsSetDedup {α : Type _} [DecidableEq α] (l : List α) :
    (jsSetDedup l).Nodup := by
  have main : ∀ n (l : List α), l.length = n → (jsSetDedup l).Nodup := by
    intro n
    induction n using Nat.strong_induction_on with
    | _ n ih =>
      intro l hl
      cases l with
      | nil => simp [jsSetDedup]
      | cons y ys =>
        have hlen : (ys.filter (fun z => z ≠ y)).length < n := by
          subst hl
          simp only [List.length_cons]
          exact Nat.lt_succ_of_le (List.length_filter_le _ ys)
        rw [jsSetDedup_cons]
        refine List.nodup_cons.mpr ⟨?_, ih _ hlen _ rfl⟩
        rw [mem_jsSetDedup]
        simp [List.mem_filter]
  exact main l.length l rfl

/-- JavaScript Map.set for the totalKmerCounts table keyed by k: an existing
entry is updated in place, a new key is appended in insertion order. -/
def setTotal (m : List (Nat × KmerCount)) (k : Nat) (v : KmerCount) :
    List (Nat × KmerCount) :=
  match m with
  | [] => [(k, v)]
  | (k2, v2) :: rest =>
    if k2 = k then (k2, v) :: rest else (k2, v2) :: setTotal rest k v

/-- JavaScript Map.get for the totalKmerCounts table. -/
def getTotal (m : List (Nat × KmerCount)) (k : Nat) : Option KmerCount :=
  match m with
  | [] => none
  | (k2, v2) :: rest => if k2 = k then some v2 else getTotal rest k

/-- The body of the featurize inner loop for one sequence at one k value
(cli.js lines 50-56): count the sequence's overlapping k-mers and either
merge them into the existing Map entry or initialize it. -/
def countStep (k : Nat) (acc : List (Nat × KmerCount)) (s : List Char) :
    List (Nat × KmerCount) :=
  match getTotal acc k with
  | some old => setTotal acc k (addMaps old (kmerCounts (kmersList s k true)))
  | none => setTotal acc k (kmerCounts (kmersList s k true))

/-- The featurize inner loop over all parsed sequences for one k value. -/
def countKForSeqs (m : List (Nat × KmerCount)) (k : Nat)
    (seqs : List (List Char)) : List (Nat × KmerCount) :=
  seqs.foldl (countStep k) m

/-- The featurize outer loop over the (deduplicated) k list, starting from
the empty totalKmerCounts Map (cli.js lines 46-58). -/
def featurizeTotals (ks : List Nat) (seqs : List (List Char)) :
    List (Nat × KmerCount) :=
  ks.foldl (fun m k => countKForSeqs m k seqs) []

/-- The per-k frequency mapping emitted by featurize (cli.js lines 79-83):
every total count entry normalized, keys untouched. -/
def featurizeProfiles (ks : List Nat) (seqs : List (List Char)) :
    List (Nat × List (Kmer × ℚ)) :=
  (featurizeTotals ks seqs).map (fun e => (e.1, kmerFrequencies e.2))

/-- The merged counts accumulated from a starting table over a sequence
list, one merge per sequence. -/
def aggFold (x : KmerCount) (seqs : List (List Char)) (k : Nat) : KmerCount :=
  seqs.foldl (fun acc s => addMaps acc (kmerCounts (kmersList s k true))) x

/-- The aggregate table of a non-empty corpus, with the empty table standing
in for the never-set entry of an empty corpus. -/
def aggValue (seqs : List (List Char)) (k : Nat) : KmerCount :=
  (aggregateForK seqs k).getD []

theorem foldl_aggStep_eq_some (k : Nat) :
    ∀ (seqs : List (List Char)) (x : KmerCount),
      seqs.foldl (aggStep k) (some x) = some (aggFold x seqs k) := by
  intro seqs
  induction seqs with
  | nil => intro x; rfl
  | cons s rest ih =>
    intro x
    show rest.foldl (aggStep k) (some (addMaps x (kmerCounts (kmersList s k true)))) = _
    rw [ih]
    rfl

theorem aggregateForK_cons (s : List Char) (rest : List (List Char)) (k : Nat) :
    aggregateForK (s :: rest) k
      = some (aggFold (kmerCounts (kmersList s k true)) rest k) := by
  show rest.foldl (aggStep k) (some (kmerCounts (kmersList s k true))) = _
  exact foldl_aggStep_eq_some k rest _

theorem aggregateForK_cons_eq_aggValue (s : List Char) (rest : List (List Char))
    (k : Nat) : aggregateForK (s :: rest) k = some (aggValue (s :: rest) k) := by
  rw [aggValue, aggregateForK_cons]
  rfl

theorem setTotal_fresh (k : Nat) (v : KmerCount) :
    ∀ m : List (Nat × KmerCount), getTotal m k = none →
      setTotal m k v = m ++ [(k, v)] := by
  intro m
  induction m with
  | nil => intro _; rfl
  | cons e rest ih =>
    obtain ⟨k2, v2⟩ := e
    intro hm
    by_cases h : k2 = k
    · subst h
      simp [getTotal] at hm
    · simp only [getTotal, if_neg h] at hm
      simp only [setTotal, if_neg h, List.cons_append, List.cons.injEq]
      exact ⟨trivial, ih hm⟩

theorem getTotal_append_self (k : Nat) (v : KmerCount) :
    ∀ m : List (Nat × KmerCount), getTotal m k = none →
      getTotal (m ++ [(k, v)]) k = some v := by
  intro m
  induction m with
  | nil => intro _; simp [getTotal]
  | cons e rest ih =>
    obtain ⟨k2, v2⟩ := e
    intro hm
    by_cases h : k2 = k
    · subst h
      simp [getTotal] at hm
    · simp only [getTotal, if_neg h] at hm
      simp only [List.cons_append, getTotal, if_neg h]
      exact ih hm

theorem getTotal_append_ne (k j : Nat) (v : KmerCount) (hjk : j ≠ k) :
    ∀ m : List (Nat × KmerCount),
      getTotal (m ++ [(k, v)]) j = getTotal m j := by
  intro m
  induction m with
  | nil =>
    simp only [List.nil_append, getTotal]
    rw [if_neg (fun h => hjk h.symm)]
  | cons e rest ih =>
    obtain ⟨k2, v2⟩ := e
    by_cases h : k2 = j
    · simp only [List.cons_append, getTotal, if_pos h]
    · simp only [List.cons_append, getTotal, if_neg h]
      exact ih

theorem setTotal_append_self (k : Nat) (v w : KmerCount) :
    ∀ m : List (Nat × KmerCount), getTotal m k = none →
      setTotal (m ++ [(k, v)]) k w = m ++ [(k, w)] := by
  intro m
  induction m with
  | nil => intro _; simp [setTotal]
  | cons e rest ih =>
    obtain ⟨k2, v2⟩ := e
    intro hm
    by_cases h : k2 = k
    · subst h
      simp [getTotal] at hm
    · simp only [getTotal, if_neg h] at hm
      simp only [List.cons_append, setTotal, if_neg h, List.cons.injEq]
      exact ⟨trivial, ih hm⟩

theorem foldl_countStep_fresh (k : Nat) :
    ∀ (rest : List (List Char)) (m : List (Nat × KmerCount)) (x : KmerCount),
      getTotal m k = none →
      rest.foldl (countStep k) (m ++ [(k, x)]) = m ++ [(k, aggFold x rest k)] := by
  intro rest
  induction rest with
  | nil =>
    intro m x _
    rfl
  | cons s rest2 ih =>
    intro m x hm
    have hstep : countStep k (m ++ [(k, x)]) s
        = m ++ [(k, addMaps x (kmerCounts (kmersList s k true)))] := by
      rw [countStep, getTotal_append_self k x m hm]
      exact setTotal_append_self k x _ m hm
    show rest2.foldl (countStep k) (countStep k (m ++ [(k, x)]) s) = _
    rw [hstep, ih m _ hm]
    rfl

theorem countKForSeqs_fresh (k : Nat) (m : List (Nat × KmerCount))
    (s : List Char) (rest : List (List Char)) (hm : getTotal m k = none) :
    countKForSeqs m k (s :: rest) = m ++ [(k, aggValue (s :: rest) k)] := by
  have hfirst : countStep k m s = m ++ [(k, kmerCounts (kmersList s k true))] := by
    rw [countStep, hm, setTotal_fresh k _ m hm]
  show rest.foldl (countStep k) (countStep k m s) = _
  rw [hfirst, foldl_countStep_fresh k rest m _ hm]
  have : aggValue (s :: rest) k = aggFold (kmerCounts (kmersList s k true)) rest k := by
    rw [aggValue, aggregateForK_cons]
    rfl
  rw [this]

theorem featurize_fold_fresh (s : List Char) (rest : List (List Char)) :
    ∀ (ks : List Nat) (m : List (Nat × KmerCount)), ks.Nodup →
      (∀ j ∈ ks, getTotal m j = none) →
      ks.foldl (fun acc k => countKForSeqs acc k (s :: rest)) m
        = m ++ ks.map (fun k => (k, aggValue (s :: rest) k)) := by
  intro ks
  induction ks with
  | nil =>
    intro m _ _
    simp
  | cons k ks2 ih =>
    intro m hnd hfresh
    have hk : getTotal m k = none := hfresh k (List.mem_cons_self _ _)
    have hnd2 : ks2.Nodup := (List.nodup_cons.mp hnd).2
    have hknot : k ∉ ks2 := (List.nodup_cons.mp hnd).1
    show ks2.foldl (fun acc k => countKForSeqs acc k (s :: rest))
        (countKForSeqs m k (s :: rest)) = _
    rw [countKForSeqs_fresh k m s rest hk]
    rw [ih (m ++ [(k, aggValue (s :: rest) k)]) hnd2 ?_]
    · rw [List.append_assoc]
      rfl
    · intro j hj
      have hjk : j ≠ k := fun h => hknot (h ▸ hj)
      rw [getTotal_append_ne k j _ hjk m]
      exact hfresh j (List.mem_cons_of_mem _ hj)

theorem featurizeTotals_eq_map (ks : List Nat) (s : List Char)
    (rest : List (List Char)) (hnd : ks.Nodup) :
    featurizeTotals ks (s :: rest)
      = ks.map (fun k => (k, aggValue (s :: rest) k)) := by
  have h := featurize_fold_fresh s rest ks [] hnd (fun j _ => rfl)
  simpa [featurizeTotals] using h

theorem getTotal_map_graph (f : Nat → KmerCount) :
    ∀ (ks : List Nat) (k : Nat), k ∈ ks →
      getTotal (ks.map (fun j => (j, f j))) k = some (f k) := by
  intro ks
  induction ks with
  | nil =>
    intro k hk
    simp at hk
  | cons j ks2 ih =>
    intro k hk
    by_cases h : j = k
    · subst h
      simp [getTotal]
    · simp only [List.map_cons, getTotal, if_neg h]
      exact ih k (by
        rcases List.mem_cons.mp hk with h2 | h2
        · exact absurd h2.symm h
        · exact h2)

/-- C9: the -k list is deduplicated before use (the parsed value list has no
duplicates and exactly the distinct parsed values, in first-occurrence
order), and the featurize loop over a duplicate-free k list and a non-empty
corpus produces exactly one total-count entry and one frequency profile per
distinct k, each holding the once-per-sequence aggregate for that k. -/
theorem C9_k_list_deduplicated_one_profile_per_k
    (parse : String → Option Int) (value : String)
    (ks : List Nat) (s : List Char) (rest : List (List Char))
    (hks : ks.Nodup) :
    (commaSeparatedIntList parse value).Nodup
    ∧ (∀ x, x ∈ commaSeparatedIntList parse value
        ↔ x ∈ (value.splitOn ",").map parse)
    ∧ (featurizeTotals ks (s :: rest)).map Prod.fst = ks
    ∧ (featurizeProfiles ks (s :: rest)).map Prod.fst = ks
    ∧ ∀ k ∈ ks, getTotal (featurizeTotals ks (s :: rest)) k
        = aggregateForK (s :: rest) k := by
  refine ⟨nodup_jsSetDedup _, fun x => mem_jsSetDedup _ x, ?_, ?_, ?_⟩
  · rw [featurizeTotals_eq_map ks s rest hks, List.map_map]
    show ks.map (fun k => k) = ks
    simp
  · rw [featurizeProfiles, featurizeTotals_eq_map ks s rest hks, List.map_map,
      List.map_map]
    show ks.map (fun k => k) = ks
    simp
  · intro k hk
    rw [featurizeTotals_eq_map ks s rest hks,
      getTotal_map_graph (fun k => aggValue (s :: rest) k) ks k hk,
      aggregateForK_cons_eq_aggValue]

/-- Concrete instance of C9: the duplicated option value 2,3,2 and the k
list [1, 2] over the one-sequence corpus AC. -/
theorem C9_k_list_deduplicated_one_profile_per_k_witness :
    ([1, 2] : List Nat).Nodup
    ∧ (commaSeparatedIntList (fun t => t.toInt?) "2,3,2").Nodup
    ∧ (featurizeTotals [1, 2] [['A', 'C']]).map Prod.fst = [1, 2]
    ∧ getTotal (featurizeTotals [1, 2] [['A', 'C']]) 2
        = aggregateForK [['A', 'C']] 2 := by
  have hks : ([1, 2] : List Nat).Nodup := by decide
  have h := C9_k_list_deduplicated_one_profile_per_k
    (fun t => t.toInt?) "2,3,2" [1, 2] ['A', 'C'] [] hks
  exact ⟨hks, h.1, h.2.2.1, h.2.2.2.2 2 (by decide)⟩
